/-
Verification of the soundboard core (src/soundboard.py): the audio mixing
engine (`AudioPlayer`) and the hotkey chord detector (`HotkeyManager`).

Python strings are modelled as `List Char` (`Tok`); Python `set` as `Finset`;
Python `dict` as an insertion-ordered association list; float samples as `ℚ`
(exact arithmetic in place of IEEE floats); the external decoder (`sf.read`)
and resampler (`samplerate.resample`) as an environment record `AudioEnv`.
All definitions follow the Python source line by line.
-/
import Mathlib

set_option linter.unusedVariables false

/-- Engine sample rate, from settings.py. -/
def SAMPLE_RATE : ℚ := 48000

/-- Engine channel count, from settings.py. -/
def CHANNELS : Nat := 2

/-- Engine block size, from settings.py. -/
def BLOCKSIZE : Nat := 2048

/-- A Python string, modelled as its list of characters. -/
abbrev Tok := List Char

/-- Helper to write `Tok` literals. -/
def pys (s : String) : Tok := s.toList

/-- ASCII lower-casing of one character (model of Python `str.lower` per char). -/
def lowerChar (c : Char) : Char :=
  if 65 ≤ c.toNat ∧ c.toNat ≤ 90 then Char.ofNat (c.toNat + 32) else c

/-- Model of Python `str.lower()`. -/
def pyLower (s : Tok) : Tok := s.map lowerChar

/-- Python whitespace characters recognised by `str.strip()`. -/
def isSpaceChar (c : Char) : Bool :=
  c = ' ' || c = Char.ofNat 9 || c = Char.ofNat 10 || c = Char.ofNat 13 ||
  c = Char.ofNat 11 || c = Char.ofNat 12

/-- Model of Python `str.strip()`: drop whitespace at both ends. -/
def pyStrip (s : Tok) : Tok :=
  ((s.dropWhile isSpaceChar).reverse.dropWhile isSpaceChar).reverse

/-- Model of Python `s.startswith(pre)`. -/
def startswith (s pre : Tok) : Bool :=
  match pre, s with
  | [], _ => true
  | _ :: _, [] => false
  | a :: pr, b :: sr => a == b && startswith sr pr

/-- Model of Python `s.split(sep)` for a one-character separator:
`"".split(sep) = [""]`, and separators delimit possibly-empty fields. -/
def py_split (sep : Char) : Tok → List Tok
  | [] => [[]]
  | c :: rest =>
    match py_split sep rest with
    | [] => []
    | t :: ts => if c = sep then [] :: t :: ts else (c :: t) :: ts

/-- Model of Python `sep.join(parts)` for a one-character separator. -/
def py_join (sep : Char) : List Tok → Tok
  | [] => []
  | [t] => t
  | t :: ts => t ++ sep :: py_join sep ts

/-- Lexicographic comparison of Python strings by code point (`s <= t`),
the order used by Python `sorted` on strings. -/
def lexLe : Tok → Tok → Bool
  | [], _ => true
  | _ :: _, [] => false
  | a :: s, b :: t => if a < b then true else if b < a then false else lexLe s t

/-- `lexLe` as a relation, for `List.insertionSort`. -/
def tokLe (a b : Tok) : Prop := lexLe a b = true

instance : DecidableRel tokLe := fun a b => inferInstanceAs (Decidable (lexLe a b = true))

/-- The modifier-name vocabulary scanned by both normalization functions,
in source order: `['ctrl', 'alt', 'shift', 'cmd', 'win']`. -/
def mod_names : List Tok := [pys ("ctrl"), pys ("alt"), pys ("shift"), pys ("cmd"), pys ("win")]

/-- One token of `_normalize_hotkey_string`: strip, then replace by the first
modifier name it starts with (the `for mod ... break` loop). -/
def norm_part (p : Tok) : Tok :=
  let q := pyStrip p
  match mod_names.find? (fun m => startswith q m) with
  | some m => m
  | none => q

/-- `HotkeyManager._normalize_hotkey_string`: lowercase, split on `'+'`,
strip and canonicalize each part, sort, and re-join with `'+'`. -/
def normalize_hotkey_string (hotkey : Tok) : Tok :=
  py_join '+' (List.insertionSort tokLe ((py_split '+' (pyLower hotkey)).map norm_part))

/-- The shifted-symbol table of `_normalize_key` (`'!' → '1'` and so on). -/
def shift_map (c : Char) : Option Char :=
  if c = '!' then some '1'
  else if c = '@' then some '2'
  else if c = '#' then some '3'
  else if c = '$' then some '4'
  else if c = '%' then some '5'
  else if c = Char.ofNat 94 then some '6'
  else if c = '&' then some '7'
  else if c = '*' then some '8'
  else if c = '(' then some '9'
  else if c = ')' then some '0'
  else if c = '_' then some '-'
  else if c = '+' then some '='
  else if c = Char.ofNat 123 then some '['
  else if c = Char.ofNat 125 then some ']'
  else if c = '|' then some (Char.ofNat 92)
  else if c = ':' then some ';'
  else if c = Char.ofNat 34 then some (Char.ofNat 39)
  else if c = '<' then some ','
  else if c = '>' then some '.'
  else if c = '?' then some '/'
  else none

/-- Model of Python `s.replace("key.", "")`, left to right. -/
def remove_key_dot : Tok → Tok
  | [] => []
  | c :: rest =>
    if startswith (c :: rest) (pys ("key.")) then remove_key_dot (rest.drop 3)
    else c :: remove_key_dot rest
termination_by s => s.length
decreasing_by
  · simp only [List.length_drop, List.length_cons]; omega
  · simp only [List.length_cons]; omega

/-- Model of Python `s.split('_')[0]`. -/
def before_underscore (s : Tok) : Tok := s.takeWhile (fun c => c ≠ '_')

/-- A raw pynput key object as received by the listener callbacks:
a `keyboard.Key` (special key with a `name`), a `KeyCode` carrying a
character, a `KeyCode` carrying only a virtual-key code, or anything else
(modelled by its `str(...)` form). -/
inductive RawKey where
  | special (name : Tok)
  | keychar (c : Char)
  | keyvk (vk : Nat)
  | other (s : Tok)
deriving DecidableEq

/-- `HotkeyManager._normalize_key`, branch by branch. -/
def normalize_key : RawKey → Tok
  | .special name =>
    let n := pyLower name
    (match mod_names.find? (fun m => startswith n m) with
     | some m => m
     | none => n)
  | .keychar c =>
    let ch := lowerChar c
    [(shift_map ch).getD ch]
  | .keyvk vk =>
    if 48 ≤ vk ∧ vk ≤ 57 then [Char.ofNat vk]
    else if 65 ≤ vk ∧ vk ≤ 90 then [Char.ofNat (vk + 32)]
    else '<' :: (Nat.toDigits 10 vk ++ ['>'])
  | .other s => before_underscore (remove_key_dot (pyLower s))

/-! ## The hotkey chord detector (`HotkeyManager`) -/

/-- Detector state, from `HotkeyManager.__init__`: the registered set
(`hotkeys`), the pressed set (`current_keys`), the latched set
(`triggered_hotkeys`), and the recording session (`recording`,
`recorded_keys`). -/
structure HotkeyManager where
  hotkeys : Finset Tok
  current_keys : Finset Tok
  triggered_hotkeys : Finset Tok
  recording : Bool
  recorded_keys : List Tok
deriving DecidableEq

/-- A fresh detector, as built by `HotkeyManager.__init__`. -/
def det_empty : HotkeyManager := ⟨∅, ∅, ∅, false, []⟩

/-- `HotkeyManager._on_press`: normalize, add to the pressed set; while
recording, append the token (deduplicated) and skip matching; otherwise fire
every registered, not-yet-latched chord whose token set is a subset of the
pressed set, latching it.  The second component is the set of chords emitted
through the `hotkey_triggered` signal during this call. -/
def on_press (m : HotkeyManager) (key : RawKey) : HotkeyManager × Finset Tok :=
  let key_str := normalize_key key
  let current := insert key_str m.current_keys
  if m.recording then
    ({ m with current_keys := current,
              recorded_keys :=
                if key_str ∈ m.recorded_keys then m.recorded_keys
                else m.recorded_keys ++ [key_str] }, ∅)
  else
    let fired := m.hotkeys.filter
      (fun h => h ∉ m.triggered_hotkeys ∧ ∀ t ∈ py_split '+' h, t ∈ current)
    ({ m with current_keys := current,
              triggered_hotkeys := m.triggered_hotkeys ∪ fired }, fired)

/-- `HotkeyManager._on_release`: normalize, remove from the pressed set,
un-latch every latched chord containing the token; if recording and the
pressed set has become empty, finish the session, emitting the recorded
tokens joined by `'+'` (the second component models the `recording_finished`
signal). -/
def on_release (m : HotkeyManager) (key : RawKey) : HotkeyManager × Option Tok :=
  let key_str := normalize_key key
  let current := m.current_keys.erase key_str
  let triggered := m.triggered_hotkeys.filter (fun h => key_str ∉ py_split '+' h)
  if m.recording ∧ current = ∅ then
    ({ m with current_keys := current, triggered_hotkeys := triggered,
              recording := false, recorded_keys := [] },
     some (py_join '+' m.recorded_keys))
  else
    ({ m with current_keys := current, triggered_hotkeys := triggered }, none)

/-- `HotkeyManager.register`: a falsy (empty) string is ignored; otherwise
the normalized string is added to the registered set. -/
def register (m : HotkeyManager) (hotkey : Tok) : HotkeyManager :=
  if hotkey = [] then m
  else { m with hotkeys := insert (normalize_hotkey_string hotkey) m.hotkeys }

/-- `HotkeyManager.unregister`. -/
def unregister (m : HotkeyManager) (hotkey : Tok) : HotkeyManager :=
  if hotkey = [] then m
  else { m with hotkeys := m.hotkeys.erase (normalize_hotkey_string hotkey) }

/-- `HotkeyManager.clear_all`: clears the registered set (and nothing else). -/
def clear_all (m : HotkeyManager) : HotkeyManager :=
  { m with hotkeys := (∅ : Finset Tok) }

/-- `HotkeyManager.start_recording`: sets the recording flag and clears the
recorded sequence and the pressed set. -/
def start_recording (m : HotkeyManager) : HotkeyManager :=
  { m with recording := true, recorded_keys := [], current_keys := (∅ : Finset Tok) }

/-- A raw key event as delivered by the pynput listener. -/
inductive KeyEvent where
  | press (k : RawKey)
  | release (k : RawKey)
deriving DecidableEq

/-- One listener event applied to the detector, keeping the set of chords
fired through the `hotkey_triggered` signal. -/
def step_event (m : HotkeyManager) : KeyEvent → HotkeyManager × Finset Tok
  | .press k => on_press m k
  | .release k => ((on_release m k).1, ∅)

/-- The detector state after a sequence of listener events. -/
def run_events (m : HotkeyManager) (evs : List KeyEvent) : HotkeyManager :=
  evs.foldl (fun s e => (step_event s e).1) m

/-- A detector with registered set `H` and no other state, the starting point
of a key-event trace. -/
def det_init (H : Finset Tok) : HotkeyManager := ⟨H, ∅, ∅, false, []⟩

/-- The detector state just before event `i` of a trace started at `det_init H`. -/
def state_at (H : Finset Tok) (evs : List KeyEvent) (i : Nat) : HotkeyManager :=
  run_events (det_init H) (evs.take i)

/-- The set of chords fired at event `i` of a trace started at `det_init H`. -/
def fires_at (H : Finset Tok) (evs : List KeyEvent) (i : Nat) : Finset Tok :=
  match evs.drop i with
  | [] => ∅
  | e :: _ => (step_event (state_at H evs i) e).2

/-- The token set of a registered chord string (`hotkey.split('+')`). -/
def chord_tokens (h : Tok) : List Tok := py_split '+' h

/-- All of the chord's tokens are currently pressed. -/
def subset_pressed (h : Tok) (m : HotkeyManager) : Prop :=
  ∀ t ∈ chord_tokens h, t ∈ m.current_keys

instance (h : Tok) (m : HotkeyManager) : Decidable (subset_pressed h m) :=
  inferInstanceAs (Decidable (∀ t ∈ chord_tokens h, t ∈ m.current_keys))

/-- The latching invariant: every latched chord has all its tokens pressed. -/
def latch_inv (m : HotkeyManager) : Prop :=
  ∀ h ∈ m.triggered_hotkeys, ∀ t ∈ py_split '+' h, t ∈ m.current_keys

instance (m : HotkeyManager) : Decidable (latch_inv m) :=
  inferInstanceAs (Decidable (∀ h ∈ m.triggered_hotkeys, ∀ t ∈ py_split '+' h, t ∈ m.current_keys))

/-- A detector operation from the claimed API surface, `start_recording`
excepted. -/
inductive DetOp where
  | press (k : RawKey)
  | release (k : RawKey)
  | reg (s : Tok)
  | unreg (s : Tok)
  | clearAll

/-- Apply one detector operation. -/
def apply_op (m : HotkeyManager) : DetOp → HotkeyManager
  | .press k => (on_press m k).1
  | .release k => (on_release m k).1
  | .reg s => register m s
  | .unreg s => unregister m s
  | .clearAll => clear_all m

/-- Apply a sequence of detector operations. -/
def apply_ops (m : HotkeyManager) (ops : List DetOp) : HotkeyManager :=
  ops.foldl apply_op m

/-! ## The audio engine (`AudioPlayer`) -/

/-- One entry of `AudioPlayer.active_sounds`: the decoded sample frames (each
frame one list of channel samples), the read cursor, the per-voice gain, the
source path and the paused flag. -/
structure SoundData where
  samples : List (List ℚ)
  position : Nat
  volume : ℚ
  file_path : String
  paused : Bool
deriving DecidableEq

/-- Engine state, from `AudioPlayer.__init__`: the active-voice table (an
insertion-ordered dict), the monotone voice-id counter, the master gain, the
`is_playing` flag and the decoded-audio cache. -/
structure AudioPlayer where
  active_sounds : List (Nat × SoundData)
  sound_id_counter : Nat
  master_volume : ℚ
  is_playing : Bool
  audio_cache : List (String × List (List ℚ))
deriving DecidableEq

/-- A fresh engine, as built by `AudioPlayer.__init__`. -/
def player_init : AudioPlayer := ⟨[], 0, 1, false, []⟩

/-- The result of `sf.read`: a one-dimensional (mono) array, or a
two-dimensional array of `ch` channels per frame. -/
inductive RawSamples where
  | oneD (xs : List ℚ)
  | twoD (ch : Nat) (rows : List (List ℚ))
deriving DecidableEq

/-- The external collaborators of `load_audio`: the decoder (`sf.read`,
`none` when decoding raises) and the resampler (`samplerate.resample`,
applied to the stereo-ized array and the rate ratio). -/
structure AudioEnv where
  decode : String → Option (RawSamples × ℚ)
  resample : List (List ℚ) → ℚ → List (List ℚ)

/-- `AudioPlayer.load_audio`: serve from the cache when possible; otherwise
decode, duplicate a single channel into two (`np.column_stack`), resample
when the source rate differs from the engine rate, and cache the result.
Decoding failure returns `None` and caches nothing. -/
def load_audio (env : AudioEnv) (p : AudioPlayer) (file_path : String) :
    Option (List (List ℚ)) × AudioPlayer :=
  match p.audio_cache.lookup file_path with
  | some cached => (some cached, p)
  | none =>
    match env.decode file_path with
    | none => (none, p)
    | some (raw, source_rate) =>
      let samples :=
        match raw with
        | .oneD xs => xs.map (fun x => [x, x])
        | .twoD ch rows => if ch = 1 then rows.map (fun r => r ++ r) else rows
      let samples :=
        if source_rate ≠ SAMPLE_RATE then env.resample samples (SAMPLE_RATE / source_rate)
        else samples
      (some samples, { p with audio_cache := p.audio_cache ++ [(file_path, samples)] })

/-- `AudioPlayer.clear_cache`. -/
def clear_cache (p : AudioPlayer) : AudioPlayer := { p with audio_cache := [] }

/-- A silent output block of `frames` stereo frames (`np.zeros`). -/
def silent_block (frames : Nat) : List (List ℚ) :=
  List.replicate frames (List.replicate CHANNELS (0 : ℚ))

/-- Elementwise sum of two frames (numpy `+` on rows). -/
def addFrame (a b : List ℚ) : List ℚ := a.zipWith (· + ·) b

/-- `mixed[:to_copy] += chunk`: add a chunk into the leading frames of a block. -/
def addChunk : List (List ℚ) → List (List ℚ) → List (List ℚ)
  | block, [] => block
  | [], _ :: _ => []
  | b :: bs, c :: cs => addFrame b c :: addChunk bs cs

/-- The chunk a voice contributes to one callback:
`samples[position:position + to_copy] * volume * master_volume`. -/
def chunk_of (frames : Nat) (mv : ℚ) (sd : SoundData) : List (List ℚ) :=
  ((sd.samples.drop sd.position).take (min frames (sd.samples.length - sd.position))).map
    (fun fr => fr.map (fun x => x * sd.volume * mv))

/-- The voice loop of `_audio_callback`, accumulation only: skip paused
voices, and add each remaining voice's chunk into the block when
`to_copy > 0`. -/
def mix_sounds (frames : Nat) (mv : ℚ) : List (Nat × SoundData) → List (List ℚ) → List (List ℚ)
  | [], mixed => mixed
  | (_, sd) :: rest, mixed =>
    if sd.paused then mix_sounds frames mv rest mixed
    else
      let to_copy := min frames (sd.samples.length - sd.position)
      mix_sounds frames mv rest (if 0 < to_copy then addChunk mixed (chunk_of frames mv sd) else mixed)

/-- The cursor update of `_audio_callback` on one voice:
`position += to_copy` for a non-paused voice with `to_copy > 0`. -/
def advance_sound (frames : Nat) (sd : SoundData) : SoundData :=
  if sd.paused then sd
  else
    let to_copy := min frames (sd.samples.length - sd.position)
    if 0 < to_copy then { sd with position := sd.position + to_copy } else sd

/-- The finished test of `_audio_callback`, applied to the advanced voice:
only non-paused voices are tested, and a voice is finished when its cursor
has reached the buffer end. -/
def sound_finished (sd : SoundData) : Bool :=
  !sd.paused && sd.samples.length ≤ sd.position

/-- `AudioPlayer._audio_callback`: mix all active non-paused voices into a
silent block, advance their cursors, drop the finished voices and refresh
`is_playing`.  Returns the output block and the new engine state. -/
def audio_callback (frames : Nat) (p : AudioPlayer) : List (List ℚ) × AudioPlayer :=
  let mixed := mix_sounds frames p.master_volume p.active_sounds (silent_block frames)
  let advanced := p.active_sounds.map (fun e => (e.1, advance_sound frames e.2))
  let remaining := advanced.filter (fun e => !(sound_finished e.2))
  (mixed, { p with active_sounds := remaining,
                   is_playing := decide (0 < remaining.length) })

/-- `AudioPlayer.play_sound`: load (possibly from cache), clear the table
when `overlap` is false, then insert a new voice under a fresh id; all under
the one lock, modelled as a single transition.  A failed load returns `None`
without touching the state. -/
def play_sound (env : AudioEnv) (p : AudioPlayer) (file_path : String) (volume : ℚ)
    (overlap : Bool) : Option Nat × AudioPlayer :=
  match load_audio env p file_path with
  | (none, p') => (none, p')
  | (some samples, p') =>
    let table := if overlap then p'.active_sounds else []
    let sound_id := p'.sound_id_counter + 1
    (some sound_id,
     { p' with active_sounds := table ++ [(sound_id, ⟨samples, 0, volume, file_path, false⟩)],
               sound_id_counter := sound_id,
               is_playing := true })

/-- `AudioPlayer.toggle_pause_sound`: flip the paused flag of a live voice
and return the new state; return `false` and change nothing for a stale id. -/
def toggle_pause_sound (p : AudioPlayer) (sound_id : Nat) : Bool × AudioPlayer :=
  match p.active_sounds.lookup sound_id with
  | some sd =>
    let table := p.active_sounds.map
      (fun e => if e.1 = sound_id then (e.1, { e.2 with paused := !sd.paused }) else e)
    (!sd.paused, { p with active_sounds := table })
  | none => (false, p)

/-- `AudioPlayer.stop_sound`: delete the voice if present, then refresh
`is_playing`. -/
def stop_sound (p : AudioPlayer) (sound_id : Nat) : AudioPlayer :=
  let table := p.active_sounds.filter (fun e => decide (e.1 ≠ sound_id))
  { p with active_sounds := table, is_playing := decide (0 < table.length) }

/-- `AudioPlayer.set_sound_volume`: update the gain of a live voice; change
nothing for a stale id. -/
def set_sound_volume (p : AudioPlayer) (sound_id : Nat) (volume : ℚ) : AudioPlayer :=
  match p.active_sounds.lookup sound_id with
  | some _ =>
    let table := p.active_sounds.map
      (fun e => if e.1 = sound_id then (e.1, { e.2 with volume := volume }) else e)
    { p with active_sounds := table }
  | none => p

/-- `AudioPlayer.stop_all`. -/
def stop_all (p : AudioPlayer) : AudioPlayer :=
  { p with active_sounds := [], is_playing := false }

/-- `AudioPlayer.set_master_volume`: clamp to `[0, 2]`. -/
def set_master_volume (p : AudioPlayer) (volume : ℚ) : AudioPlayer :=
  { p with master_volume := max 0 (min 2 volume) }

/-! ## Declarative restatement of the mix callback (for the refinement proof) -/

/-- The frame a single voice contributes at block offset `i`, as the spec
phrases it: nothing while paused or past `min(frames, remaining)`, otherwise
the sample at the cursor plus `i`, scaled by `volume * master`. -/
def frame_contrib (frames i : Nat) (mv : ℚ) (sd : SoundData) : List ℚ :=
  if sd.paused = false ∧ i < min frames (sd.samples.length - sd.position) then
    (sd.samples.getD (sd.position + i) []).map (fun x => x * sd.volume * mv)
  else List.replicate CHANNELS 0

/-- The expected mixed output frame at block offset `i`: a silent frame into
which every voice's contribution is accumulated, in table order, with no
amplitude clamping. -/
def mixed_frame_spec (frames : Nat) (p : AudioPlayer) (i : Nat) : List ℚ :=
  p.active_sounds.foldl
    (fun acc e => addFrame acc (frame_contrib frames i p.master_volume e.2))
    (List.replicate CHANNELS 0)

/-- The cursor advance as the spec phrases it: a non-paused voice's cursor
advances by exactly `min(frames, remaining)`. -/
def advance_spec (frames : Nat) (sd : SoundData) : SoundData :=
  if sd.paused then sd
  else { sd with position := sd.position + min frames (sd.samples.length - sd.position) }

/-! ## Concrete fixtures used by counterexamples and witnesses -/

/-- An environment whose decoder always fails. -/
def env_fail : AudioEnv := ⟨fun _ => none, fun s _ => s⟩

/-- An environment decoding every path to a three-channel file at the engine
rate (resampling therefore never runs). -/
def c2_env : AudioEnv := ⟨fun _ => some (.twoD 3 [[1, 2, 3]], SAMPLE_RATE), fun s _ => s⟩

/-- An environment decoding every path to a two-frame mono file at the engine
rate. -/
def env_mono : AudioEnv := ⟨fun _ => some (.oneD [4, 5], SAMPLE_RATE), fun s _ => s⟩

/-- A concrete one-voice engine state. -/
def sd_w : SoundData := ⟨[[1, 1], [2, 2]], 0, 1, ("w"), false⟩

/-- An engine with the single voice `sd_w` under id 1. -/
def p_w : AudioPlayer := ⟨[(1, sd_w)], 1, 1, true, []⟩

/-- Two constant-amplitude stereo voices for the mixing witness. -/
def sd_mix1 : SoundData := ⟨[[1, 1], [1, 1], [1, 1]], 0, 1/2, ("a"), false⟩

/-- Second constant-amplitude voice for the mixing witness. -/
def sd_mix2 : SoundData := ⟨[[2, 2], [2, 2]], 0, 2, ("b"), false⟩

/-- An engine mixing `sd_mix1` and `sd_mix2` at master gain 1. -/
def p_mix : AudioPlayer := ⟨[(1, sd_mix1), (2, sd_mix2)], 2, 1, true, []⟩

/-- A detector in the middle of a recording session with one recorded key. -/
def m_rec : HotkeyManager :=
  ⟨∅, {pys ("a")}, ∅, true, [pys ("a")]⟩

/-! ## Helper lemmas on the voice table -/

lemma lookup_none_filter_ne (l : List (Nat × SoundData)) (i : Nat)
    (h : l.lookup i = none) : l.filter (fun e => decide (e.1 ≠ i)) = l := by
  induction l with
  | nil => rfl
  | cons a t ih =>
    rw [List.lookup] at h
    cases hai : i == a.1 with
    | true => rw [hai] at h; exact absurd h (by simp)
    | false =>
      rw [hai] at h
      have hne : a.1 ≠ i := fun he => by simp [he] at hai
      rw [List.filter_cons, if_pos (by simpa using hne), ih h]

/-- C3, amended: `clear_all()` empties the registered chord set and leaves
both the latched set and the pressed-key set unchanged.  (The claim's
assertion that the latched set is also emptied is refuted by
`clear_all_leaves_latched`.) -/
theorem clear_all_clears_registered_only (m : HotkeyManager) :
    (clear_all m).hotkeys = ∅ ∧
    (clear_all m).triggered_hotkeys = m.triggered_hotkeys ∧
    (clear_all m).current_keys = m.current_keys :=
  ⟨rfl, rfl, rfl⟩

/-- C3 counterexample: register `"a"`, press the `a` key (the chord fires and
is latched), then call `clear_all()`: the registered set is empty but the
latched set is still non-empty, against the claim that `clear_all` leaves the
latched set empty. -/
theorem clear_all_leaves_latched :
    (clear_all (on_press (register det_empty (pys ("a"))) (.keychar 'a')).1).hotkeys = ∅ ∧
    (clear_all (on_press (register det_empty (pys ("a"))) (.keychar 'a')).1).triggered_hotkeys
      ≠ ∅ := by
  exact ⟨rfl, by decide⟩

lemma lookup_map_update (l : List (Nat × SoundData)) (i : Nat) (sd : SoundData)
    (f : SoundData → SoundData) (h : l.lookup i = some sd) :
    (l.map (fun e => if e.1 = i then (e.1, f e.2) else e)).lookup i = some (f sd) := by
  induction l with
  | nil => exact absurd h (by simp [List.lookup])
  | cons a t ih =>
    rw [List.lookup] at h
    cases hai : i == a.1 with
    | true =>
      rw [hai] at h
      have hsd : a.2 = sd := by injection h
      have heq : a.1 = i := by
        have h2 : i = a.1 := by simpa using hai
        exact h2.symm
      simp only [List.map_cons]
      rw [if_pos heq, List.lookup]
      simp [hai, hsd]
    | false =>
      rw [hai] at h
      have hne : a.1 ≠ i := fun he => by simp [he] at hai
      simp only [List.map_cons]
      rw [if_neg hne, List.lookup]
      simp only [hai]
      exact ih h

/-- C7: for a stale voice id, `toggle_pause_sound` returns `false` and changes
nothing, and `set_sound_volume` and `stop_sound` leave the voice table
unchanged; for a live id, `toggle_pause_sound` flips that voice's paused flag
and returns the new state. -/
theorem transport_stale_ids_noop :
    (∀ (p : AudioPlayer) (i : Nat) (v : ℚ), p.active_sounds.lookup i = none →
      toggle_pause_sound p i = (false, p) ∧
      set_sound_volume p i v = p ∧
      (stop_sound p i).active_sounds = p.active_sounds) ∧
    (∀ (p : AudioPlayer) (i : Nat) (sd : SoundData), p.active_sounds.lookup i = some sd →
      (toggle_pause_sound p i).1 = !sd.paused ∧
      (toggle_pause_sound p i).2.active_sounds.lookup i =
        some { sd with paused := !sd.paused }) := by
  constructor
  · intro p i v h
    refine ⟨?_, ?_, ?_⟩
    · unfold toggle_pause_sound
      rw [h]
    · unfold set_sound_volume
      rw [h]
    · show p.active_sounds.filter (fun e => decide (e.1 ≠ i)) = p.active_sounds
      exact lookup_none_filter_ne _ i h
  · intro p i sd h
    constructor
    · unfold toggle_pause_sound
      rw [h]
    · have hl := lookup_map_update p.active_sounds i sd
        (fun d => { d with paused := !sd.paused }) h
      unfold toggle_pause_sound
      rw [h]
      exact hl

/-- Witness for C7 at a concrete one-voice engine: id 2 is stale (no-op,
`false`), id 1 is live (toggling returns `true`). -/
theorem transport_stale_ids_noop_witness :
    toggle_pause_sound p_w 2 = (false, p_w) ∧ (toggle_pause_sound p_w 1).1 = !sd_w.paused := by
  constructor
  · exact (transport_stale_ids_noop.1 p_w 2 0 (by decide)).1
  · exact (transport_stale_ids_noop.2 p_w 1 sd_w (by decide)).1

/-- C10: when the path is not cached and decoding fails, `play_sound` returns
`None` and the engine state — voice table, id counter, `is_playing` flag and
audio cache — is exactly what it was, for either value of `overlap`. -/
theorem play_sound_decode_failure_noop (env : AudioEnv) (p : AudioPlayer) (path : String)
    (v : ℚ) (overlap : Bool) (hc : p.audio_cache.lookup path = none)
    (hd : env.decode path = none) :
    play_sound env p path v overlap = (none, p) := by
  unfold play_sound load_audio
  rw [hc, hd]

/-- Witness for C10: a failing decoder on a fresh engine. -/
theorem play_sound_decode_failure_noop_witness :
    play_sound env_fail player_init ("x") 1 false = (none, player_init) :=
  play_sound_decode_failure_noop env_fail player_init ("x") 1 false rfl rfl

/-- C2 counterexample: a three-channel file decoded at the engine rate is
returned by `load_audio` with its three channels untouched, so `load` does
return a buffer whose channel count differs from the engine's 2. -/
theorem load_audio_three_channel_passthrough :
    (load_audio c2_env player_init ("f")).1 = some [[(1 : ℚ), 2, 3]] ∧
    ¬ (∀ b, (load_audio c2_env player_init ("f")).1 = some b →
        ∀ row ∈ b, row.length = CHANNELS) := by
  refine ⟨by decide, fun hall => ?_⟩
  have h3 := hall [[(1 : ℚ), 2, 3]] (by decide) [(1 : ℚ), 2, 3] (by decide)
  simp [CHANNELS] at h3

/-- C2, amended: for a path that is not cached and decodes successfully
(with a resampler that preserves per-frame channel counts), a mono input is
duplicated to the engine's 2 channels, a single-channel two-dimensional input
is likewise duplicated to 2 channels, but an input with `ch ≠ 1` channels is
returned with `ch` channels unchanged — in particular a more-than-two-channel
input is NOT reduced to 2 channels.  At the engine rate a mono input decodes
to exactly its sample-duplicated frames. -/
theorem load_audio_channel_counts (env : AudioEnv) (p : AudioPlayer) (path : String)
    (raw : RawSamples) (rate : ℚ)
    (hres : ∀ s r n, (∀ row ∈ s, row.length = n) → ∀ row ∈ env.resample s r, row.length = n)
    (hc : p.audio_cache.lookup path = none)
    (hd : env.decode path = some (raw, rate)) :
    (∀ xs, raw = .oneD xs → ∀ b, (load_audio env p path).1 = some b →
        ∀ row ∈ b, row.length = CHANNELS) ∧
    (∀ rows, raw = .twoD 1 rows → (∀ row ∈ rows, row.length = 1) →
        ∀ b, (load_audio env p path).1 = some b → ∀ row ∈ b, row.length = CHANNELS) ∧
    (∀ ch rows, raw = .twoD ch rows → ch ≠ 1 → (∀ row ∈ rows, row.length = ch) →
        ∀ b, (load_audio env p path).1 = some b → ∀ row ∈ b, row.length = ch) ∧
    (∀ xs, raw = .oneD xs → rate = SAMPLE_RATE →
        (load_audio env p path).1 = some (xs.map (fun x => [x, x]))) := by
  unfold load_audio
  rw [hc, hd]
  refine ⟨?_, ?_, ?_, ?_⟩
  · rintro xs rfl b hb row hrow
    have hbase : ∀ row ∈ xs.map (fun x => [x, x]), row.length = CHANNELS := by
      intro r hr
      obtain ⟨x, _, rfl⟩ := List.mem_map.mp hr
      rfl
    dsimp only at hb
    by_cases hr : rate = SAMPLE_RATE
    · rw [if_neg (by simp [hr]) ] at hb
      have hbb := Option.some_injective _ hb
      subst hbb
      exact hbase row hrow
    · rw [if_pos (by simpa using hr)] at hb
      have hbb := Option.some_injective _ hb
      subst hbb
      exact hres _ _ _ hbase row hrow
  · rintro rows rfl hlen b hb row hrow
    have hbase : ∀ row ∈ rows.map (fun r => r ++ r), row.length = CHANNELS := by
      intro r hr
      obtain ⟨r0, hr0, rfl⟩ := List.mem_map.mp hr
      simp [CHANNELS, List.length_append, hlen r0 hr0]
    dsimp only at hb
    rw [if_pos rfl] at hb
    by_cases hr : rate = SAMPLE_RATE
    · rw [if_neg (by simp [hr]) ] at hb
      have hbb := Option.some_injective _ hb
      subst hbb
      exact hbase row hrow
    · rw [if_pos (by simpa using hr)] at hb
      have hbb := Option.some_injective _ hb
      subst hbb
      exact hres _ _ _ hbase row hrow
  · rintro ch rows rfl hch hlen b hb row hrow
    dsimp only at hb
    rw [if_neg hch] at hb
    by_cases hr : rate = SAMPLE_RATE
    · rw [if_neg (by simp [hr]) ] at hb
      have hbb := Option.some_injective _ hb
      subst hbb
      exact hlen row hrow
    · rw [if_pos (by simpa using hr)] at hb
      have hbb := Option.some_injective _ hb
      subst hbb
      exact hres _ _ _ hlen row hrow
  · rintro xs rfl rfl
    dsimp only
    rw [if_neg (by simp)]

/-- Witness for C2 (amended) at a concrete mono file: the two-frame mono
input comes back duplicated into two channels. -/
theorem load_audio_channel_counts_witness :
    (load_audio env_mono player_init ("m")).1 = some [[(4 : ℚ), 4], [5, 5]] := by
  have h := (load_audio_channel_counts env_mono player_init ("m") (.oneD [4, 5]) SAMPLE_RATE
      (fun s r n hh => hh) rfl rfl).2.2.2 [4, 5] rfl rfl
  simpa using h

lemma load_audio_state (env : AudioEnv) (p : AudioPlayer) (path : String) :
    (load_audio env p path).2.active_sounds = p.active_sounds ∧
    (load_audio env p path).2.sound_id_counter = p.sound_id_counter := by
  unfold load_audio
  split
  · exact ⟨rfl, rfl⟩
  · split
    · exact ⟨rfl, rfl⟩
    · exact ⟨rfl, rfl⟩

/-- C6: after a successful load, `play_sound` with `overlap = false` (one
atomic transition, modelling the single lock-protected critical section)
returns the fresh id `counter + 1`, leaves exactly the one new voice in the
table, bumps the counter, and every id issued before (any `j ≤ counter`)
now resolves as not-found. -/
theorem play_no_overlap_single_voice (env : AudioEnv) (p : AudioPlayer) (path : String)
    (v : ℚ) (samples : List (List ℚ)) (p1 : AudioPlayer)
    (hload : load_audio env p path = (some samples, p1)) :
    (play_sound env p path v false).1 = some (p.sound_id_counter + 1) ∧
    (play_sound env p path v false).2.active_sounds =
      [(p.sound_id_counter + 1, ⟨samples, 0, v, path, false⟩)] ∧
    (play_sound env p path v false).2.sound_id_counter = p.sound_id_counter + 1 ∧
    ∀ j, j ≤ p.sound_id_counter →
      (play_sound env p path v false).2.active_sounds.lookup j = none := by
  have hcnt : p1.sound_id_counter = p.sound_id_counter := by
    have h := (load_audio_state env p path).2
    rw [hload] at h
    exact h
  unfold play_sound
  rw [hload]
  dsimp only
  rw [hcnt]
  refine ⟨rfl, by simp, by simp, ?_⟩
  intro j hj
  have hne : (j == p.sound_id_counter + 1) = false := by
    simp only [beq_eq_false_iff_ne, ne_eq]
    omega
  simp [List.lookup, hne]

/-- Witness for C6: concrete first play on a fresh engine gets id 1, and the
never-issued id 0 resolves as not-found. -/
theorem play_no_overlap_single_voice_witness :
    (play_sound env_mono player_init ("m") 1 false).1 =
      some (player_init.sound_id_counter + 1) ∧
    (play_sound env_mono player_init ("m") 1 false).2.active_sounds.lookup 0 = none := by
  have h := play_no_overlap_single_voice env_mono player_init ("m") 1
    ([[(4 : ℚ), 4], [5, 5]]) ((load_audio env_mono player_init ("m")).2) rfl
  exact ⟨h.1, h.2.2.2 0 (by decide)⟩

/-- C8: while recording, a key press appends the normalized token to the
session sequence only when it is new, and performs no chord matching (nothing
is fired and the latched set is untouched); a release that empties the
pressed set ends the session, emitting the recorded tokens joined with `'+'`
in first-press order (unsorted), and clears the sequence. -/
theorem recording_session_steps :
    (∀ (m : HotkeyManager) (k : RawKey), m.recording = true →
      (on_press m k).2 = ∅ ∧
      (on_press m k).1.triggered_hotkeys = m.triggered_hotkeys ∧
      (on_press m k).1.recorded_keys =
        (if normalize_key k ∈ m.recorded_keys then m.recorded_keys
         else m.recorded_keys ++ [normalize_key k])) ∧
    (∀ (m : HotkeyManager) (k : RawKey), m.recording = true →
      m.current_keys.erase (normalize_key k) = ∅ →
      (on_release m k).2 = some (py_join '+' m.recorded_keys) ∧
      (on_release m k).1.recording = false ∧
      (on_release m k).1.recorded_keys = []) := by
  constructor
  · intro m k hrec
    refine ⟨?_, ?_, ?_⟩ <;> simp [on_press, hrec]
  · intro m k hrec hemp
    refine ⟨?_, ?_, ?_⟩ <;> simp [on_release, hrec, hemp]

/-- Witness for C8 on a concrete mid-recording detector: pressing `b` appends
it, pressing `a` again does not, and releasing the last held key emits the
recorded string `"a"`. -/
theorem recording_session_steps_witness :
    ((on_press m_rec (.keychar 'b')).2 = ∅ ∧
      (on_press m_rec (.keychar 'b')).1.triggered_hotkeys = m_rec.triggered_hotkeys ∧
      (on_press m_rec (.keychar 'b')).1.recorded_keys =
        (if normalize_key (.keychar 'b') ∈ m_rec.recorded_keys then m_rec.recorded_keys
         else m_rec.recorded_keys ++ [normalize_key (.keychar 'b')])) ∧
    (on_release m_rec (.keychar 'a')).2 = some (py_join '+' m_rec.recorded_keys) := by
  constructor
  · exact recording_session_steps.1 m_rec (.keychar 'b') rfl
  · exact (recording_session_steps.2 m_rec (.keychar 'a') rfl (by decide)).1

lemma latch_inv_press (m : HotkeyManager) (k : RawKey) (hm : latch_inv m) :
    latch_inv (on_press m k).1 := by
  unfold latch_inv on_press
  by_cases hrec : m.recording = true
  · rw [if_pos hrec]
    intro h hh t ht
    exact Finset.mem_insert_of_mem (hm h hh t ht)
  · rw [if_neg hrec]
    intro h hh t ht
    rcases Finset.mem_union.mp hh with hh1 | hh2
    · exact Finset.mem_insert_of_mem (hm h hh1 t ht)
    · exact (Finset.mem_filter.mp hh2).2.2 t ht

lemma latch_inv_release (m : HotkeyManager) (k : RawKey) (hm : latch_inv m) :
    latch_inv (on_release m k).1 := by
  unfold latch_inv on_release
  by_cases hcond : m.recording = true ∧ m.current_keys.erase (normalize_key k) = ∅
  · rw [if_pos hcond]
    intro h hh t ht
    have hf := Finset.mem_filter.mp hh
    exact Finset.mem_erase.mpr ⟨fun he => hf.2 (he ▸ ht), hm h hf.1 t ht⟩
  · rw [if_neg hcond]
    intro h hh t ht
    have hf := Finset.mem_filter.mp hh
    exact Finset.mem_erase.mpr ⟨fun he => hf.2 (he ▸ ht), hm h hf.1 t ht⟩

lemma latch_inv_op (m : HotkeyManager) (op : DetOp) (hm : latch_inv m) :
    latch_inv (apply_op m op) := by
  cases op with
  | press k => exact latch_inv_press m k hm
  | release k => exact latch_inv_release m k hm
  | reg s =>
    show latch_inv (register m s)
    unfold register
    split
    · exact hm
    · exact hm
  | unreg s =>
    show latch_inv (unregister m s)
    unfold unregister
    split
    · exact hm
    · exact hm
  | clearAll => exact hm

/-- C5, amended: along every sequence of `on_key_press`, `on_key_release`,
`register`, `unregister` and `clear_all` operations from a fresh detector,
every latched chord has all of its tokens inside the pressed-key set.
(`start_recording` breaks this invariant — see
`start_recording_breaks_latch_inv` — because it clears the pressed set
without clearing the latched set.) -/
theorem latch_inv_reachable (ops : List DetOp) : latch_inv (apply_ops det_empty ops) := by
  suffices hstep : ∀ (l : List DetOp) (m : HotkeyManager),
      latch_inv m → latch_inv (apply_ops m l) by
    exact hstep ops det_empty (fun h hh => absurd hh (Finset.not_mem_empty h))
  intro l
  induction l with
  | nil => intro m hm; exact hm
  | cons op rest ih =>
    intro m hm
    exact ih _ (latch_inv_op m op hm)

/-- C5 counterexample: register `"a"`, press the `a` key (the chord latches),
then call `start_recording`: the pressed set is cleared but the latched set
still holds `"a"`, so a latched chord's tokens are no longer all pressed,
against the claimed invariant over sequences that include `start_recording`. -/
theorem start_recording_breaks_latch_inv :
    ¬ latch_inv (start_recording (on_press (register det_empty (pys ("a"))) (.keychar 'a')).1) := by
  decide

lemma py_split_ne_nil (sep : Char) (s : Tok) : py_split sep s ≠ [] := by
  induction s with
  | nil => simp [py_split]
  | cons c rest ih =>
    unfold py_split
    cases h : py_split sep rest with
    | nil => exact absurd h ih
    | cons t ts =>
      by_cases hcs : c = sep
      · simp [hcs]
      · simp [hcs]

lemma fired_press (c : Tok) (m : HotkeyManager) (k : RawKey)
    (hrec : m.recording = false) (hc : c ∈ m.hotkeys)
    (hinv : c ∈ m.triggered_hotkeys ↔ subset_pressed c m) :
    c ∈ (on_press m k).2 ↔
      (subset_pressed c (on_press m k).1 ∧ ¬ subset_pressed c m) := by
  unfold on_press
  rw [if_neg (by simp [hrec])]
  dsimp only
  rw [Finset.mem_filter]
  unfold subset_pressed chord_tokens
  constructor
  · rintro ⟨-, hnt, hsub⟩
    exact ⟨hsub, fun hs => hnt (hinv.mpr hs)⟩
  · rintro ⟨hsub, hns⟩
    exact ⟨hc, fun ht => hns (hinv.mp ht), hsub⟩

lemma step_keeps (m : HotkeyManager) (e : KeyEvent) (hrec : m.recording = false) :
    (step_event m e).1.hotkeys = m.hotkeys ∧ (step_event m e).1.recording = false := by
  cases e with
  | press k =>
    unfold step_event on_press
    dsimp only
    rw [if_neg (by simp [hrec])]
    exact ⟨rfl, hrec⟩
  | release k =>
    unfold step_event on_release
    dsimp only
    rw [if_neg (fun hcond => by simp [hrec] at hcond)]
    exact ⟨rfl, hrec⟩

lemma step_inv (c : Tok) (m : HotkeyManager) (e : KeyEvent)
    (hrec : m.recording = false) (hc : c ∈ m.hotkeys)
    (hinv : c ∈ m.triggered_hotkeys ↔ subset_pressed c m) :
    c ∈ (step_event m e).1.triggered_hotkeys ↔ subset_pressed c (step_event m e).1 := by
  cases e with
  | press k =>
    unfold step_event on_press
    dsimp only
    rw [if_neg (by simp [hrec])]
    dsimp only
    constructor
    · intro ht
      rcases Finset.mem_union.mp ht with h1 | h2
      · intro t htok
        exact Finset.mem_insert_of_mem (hinv.mp h1 t htok)
      · exact (Finset.mem_filter.mp h2).2.2
    · intro hs
      by_cases ht : c ∈ m.triggered_hotkeys
      · exact Finset.mem_union_left _ ht
      · exact Finset.mem_union_right _ (Finset.mem_filter.mpr ⟨hc, ht, hs⟩)
  | release k =>
    unfold step_event on_release
    dsimp only
    rw [if_neg (fun hcond => by simp [hrec] at hcond)]
    dsimp only
    constructor
    · intro ht
      have hf := Finset.mem_filter.mp ht
      intro t htok
      exact Finset.mem_erase.mpr ⟨fun he => hf.2 (he ▸ htok), hinv.mp hf.1 t htok⟩
    · intro hs
      by_cases hk : normalize_key k ∈ py_split '+' c
      · have hmem := hs (normalize_key k) hk
        exact absurd rfl (Finset.mem_erase.mp hmem).1
      · refine Finset.mem_filter.mpr ⟨?_, hk⟩
        exact hinv.mpr (fun t htok => (Finset.mem_erase.mp (hs t htok)).2)

lemma run_events_inv (c : Tok) (evs : List KeyEvent) :
    ∀ m : HotkeyManager, m.recording = false → c ∈ m.hotkeys →
      (c ∈ m.triggered_hotkeys ↔ subset_pressed c m) →
      ((run_events m evs).hotkeys = m.hotkeys ∧
       (run_events m evs).recording = false ∧
       (c ∈ (run_events m evs).triggered_hotkeys ↔ subset_pressed c (run_events m evs))) := by
  induction evs with
  | nil => exact fun m h1 h2 h3 => ⟨rfl, h1, h3⟩
  | cons e rest ih =>
    intro m h1 h2 h3
    have hk := step_keeps m e h1
    have hi := step_inv c m e h1 h2 h3
    have hrest := ih (step_event m e).1 hk.2 (hk.1.symm ▸ h2) hi
    exact ⟨hrest.1.trans hk.1, hrest.2.1, hrest.2.2⟩

lemma fires_at_nil (H : Finset Tok) (evs : List KeyEvent) (i : Nat)
    (h : evs.drop i = []) : fires_at H evs i = ∅ := by
  unfold fires_at
  rw [h]

lemma fires_at_cons (H : Finset Tok) (evs : List KeyEvent) (i : Nat) (e : KeyEvent)
    (rest : List KeyEvent) (h : evs.drop i = e :: rest) :
    fires_at H evs i = (step_event (state_at H evs i) e).2 := by
  unfold fires_at
  rw [h]

lemma state_at_succ (H : Finset Tok) (evs : List KeyEvent) (i : Nat) (e : KeyEvent)
    (rest : List KeyEvent) (hdrop : evs.drop i = e :: rest) :
    state_at H evs (i + 1) = (step_event (state_at H evs i) e).1 := by
  unfold state_at
  have htake : evs.take (i + 1) = evs.take i ++ [e] := by
    rw [List.take_add, hdrop]
    rfl
  rw [htake]
  unfold run_events
  rw [List.foldl_append]
  rfl

/-- C9: with chord `c` registered and a fresh key state, along any
press/release trace (no recording session), `c` fires at event `i` exactly
when event `i` is a press that turns "all of `c`'s tokens are pressed" from
false to true.  Hence it fires exactly once at the press completing the
chord, never again while all keys stay held (the subset stays true), and
fires again after one of its keys is released (subset false) and re-pressed
(subset true again). -/
theorem chord_fires_iff_subset_becomes_true (c : Tok) (H : Finset Tok) (hc : c ∈ H)
    (evs : List KeyEvent) (i : Nat) :
    c ∈ fires_at H evs i ↔
      ((∃ k rest, evs.drop i = KeyEvent.press k :: rest) ∧
       subset_pressed c (state_at H evs (i + 1)) ∧
       ¬ subset_pressed c (state_at H evs i)) := by
  have hinit : c ∈ (det_init H).triggered_hotkeys ↔ subset_pressed c (det_init H) := by
    constructor
    · intro h
      exact absurd h (Finset.not_mem_empty c)
    · intro hs
      obtain ⟨t, ht⟩ : ∃ t, t ∈ chord_tokens c := by
        cases hsp : chord_tokens c with
        | nil => exact absurd hsp (py_split_ne_nil '+' c)
        | cons a l => exact ⟨a, hsp ▸ List.mem_cons_self a l⟩
      exact absurd (hs t ht) (Finset.not_mem_empty t)
  have hstate := run_events_inv c (evs.take i) (det_init H) rfl hc hinit
  cases hdrop : evs.drop i with
  | nil =>
    rw [fires_at_nil H evs i hdrop]
    constructor
    · intro h
      exact absurd h (Finset.not_mem_empty c)
    · rintro ⟨⟨k, rest, heq⟩, -, -⟩
      exact absurd heq (by simp)
  | cons e rest =>
    rw [fires_at_cons H evs i e rest hdrop, state_at_succ H evs i e rest hdrop]
    cases e with
    | press k =>
      have hfp := fired_press c (state_at H evs i) k hstate.2.1 (hstate.1.symm ▸ hc)
        hstate.2.2
      constructor
      · intro h
        have hspec := hfp.mp h
        exact ⟨⟨k, rest, rfl⟩, hspec.1, hspec.2⟩
      · rintro ⟨-, hs1, hs2⟩
        exact hfp.mpr ⟨hs1, hs2⟩
    | release k =>
      constructor
      · intro h
        exact absurd h (Finset.not_mem_empty c)
      · rintro ⟨⟨k', rest', heq⟩, -, -⟩
        exact absurd heq (by simp)

/-- Witness for C9: with `"a+ctrl"` registered, pressing `ctrl` then `a`
fires the chord at the second press. -/
theorem chord_fires_iff_subset_becomes_true_witness :
    pys ("a+ctrl") ∈ ({pys ("a+ctrl")} : Finset Tok) ∧
    pys ("a+ctrl") ∈ fires_at {pys ("a+ctrl")}
      [KeyEvent.press (.special (pys ("ctrl"))), KeyEvent.press (.keychar 'a')] 1 := by
  refine ⟨by decide, ?_⟩
  exact (chord_fires_iff_subset_becomes_true (pys ("a+ctrl")) {pys ("a+ctrl")} (by decide)
    [KeyEvent.press (.special (pys ("ctrl"))), KeyEvent.press (.keychar 'a')] 1).mpr
    ⟨⟨.keychar 'a', [], by decide⟩, by decide, by decide⟩

lemma char_toNat_ofNat_lower (m : Nat) (h1 : 97 ≤ m) (h2 : m ≤ 122) :
    (Char.ofNat m).toNat = m := by
  interval_cases m <;> rfl

lemma lowerChar_idem (c : Char) : lowerChar (lowerChar c) = lowerChar c := by
  unfold lowerChar
  by_cases h : 65 ≤ c.toNat ∧ c.toNat ≤ 90
  · rw [if_pos h]
    have ht : (Char.ofNat (c.toNat + 32)).toNat = c.toNat + 32 :=
      char_toNat_ofNat_lower _ (by omega) (by omega)
    rw [if_neg (by rw [ht]; omega)]
  · rw [if_neg h, if_neg h]

lemma pyLower_eq_self (t : Tok) (h : ∀ c ∈ t, lowerChar c = c) : pyLower t = t := by
  unfold pyLower
  induction t with
  | nil => rfl
  | cons a r ih =>
    rw [List.map_cons, h a (List.mem_cons_self a r),
      ih (fun c hc => h c (List.mem_cons_of_mem a hc))]

lemma pyLower_chars_fixed (s : Tok) : ∀ c ∈ pyLower s, lowerChar c = c := by
  intro c hc
  obtain ⟨d, -, rfl⟩ := List.mem_map.mp hc
  exact lowerChar_idem d

lemma dropWhile_head_false (p : Char → Bool) (l : Tok) :
    l.dropWhile p = [] ∨ ∃ a t, l.dropWhile p = a :: t ∧ p a = false := by
  induction l with
  | nil => exact Or.inl rfl
  | cons a t ih =>
    by_cases h : p a
    · rw [List.dropWhile_cons_of_pos h]
      exact ih
    · rw [List.dropWhile_cons_of_neg h]
      exact Or.inr ⟨a, t, rfl, by simpa using h⟩

lemma dropWhile_dropWhile (p : Char → Bool) (l : Tok) :
    List.dropWhile p (List.dropWhile p l) = List.dropWhile p l := by
  rcases dropWhile_head_false p l with h | ⟨a, t, h, hp⟩
  · rw [h]
    rfl
  · rw [h, List.dropWhile_cons_of_neg (by simp [hp])]

lemma pyStrip_idem (s : Tok) : pyStrip (pyStrip s) = pyStrip s := by
  unfold pyStrip
  have hA : List.dropWhile isSpaceChar
      ((List.dropWhile isSpaceChar (List.dropWhile isSpaceChar s).reverse).reverse) =
      (List.dropWhile isSpaceChar (List.dropWhile isSpaceChar s).reverse).reverse := by
    rcases dropWhile_head_false isSpaceChar s with hu | ⟨a, u', hu, hpa⟩
    · rw [hu]
      rfl
    · have hpre : (List.dropWhile isSpaceChar (List.dropWhile isSpaceChar s).reverse).reverse
          <+: List.dropWhile isSpaceChar s := by
        have hsuf : List.dropWhile isSpaceChar (List.dropWhile isSpaceChar s).reverse
            <:+ (List.dropWhile isSpaceChar s).reverse := List.dropWhile_suffix isSpaceChar
        have h2 := List.reverse_prefix.mpr hsuf
        rw [List.reverse_reverse] at h2
        exact h2
      rcases hpre with ⟨tail, htail⟩
      cases hv : (List.dropWhile isSpaceChar (List.dropWhile isSpaceChar s).reverse).reverse with
      | nil => rfl
      | cons b v' =>
        rw [hv, hu] at htail
        have hb : b = a := by
          rw [List.cons_append] at htail
          injection htail
        subst hb
        exact List.dropWhile_cons_of_neg (by simp [hpa])
  rw [hA, List.reverse_reverse, dropWhile_dropWhile]

lemma pyStrip_subset (s : Tok) : ∀ c ∈ pyStrip s, c ∈ s := by
  intro c hc
  unfold pyStrip at hc
  rw [List.mem_reverse] at hc
  have h1 := List.dropWhile_subset isSpaceChar hc
  rw [List.mem_reverse] at h1
  exact List.dropWhile_subset isSpaceChar h1

lemma py_split_no_sep (sep : Char) (s : Tok) : ∀ t ∈ py_split sep s, sep ∉ t := by
  induction s with
  | nil =>
    intro t ht
    simp only [py_split, List.mem_singleton] at ht
    simp [ht]
  | cons c rest ih =>
    intro t ht
    unfold py_split at ht
    cases h : py_split sep rest with
    | nil => exact absurd h (py_split_ne_nil sep rest)
    | cons t0 ts =>
      rw [h] at ht
      dsimp only at ht
      by_cases hcs : c = sep
      · rw [if_pos hcs] at ht
        rcases List.mem_cons.mp ht with rfl | h2
        · simp
        · exact ih t (by rw [h]; exact h2)
      · rw [if_neg hcs] at ht
        rcases List.mem_cons.mp ht with rfl | h2
        · intro hmem
          rcases List.mem_cons.mp hmem with rfl | h3
          · exact hcs rfl
          · exact ih t0 (by rw [h]; exact List.mem_cons_self t0 ts) h3
        · exact ih t (by rw [h]; exact List.mem_cons_of_mem t0 h2)

lemma py_split_chars (sep : Char) (s : Tok) :
    ∀ t ∈ py_split sep s, ∀ c ∈ t, c ∈ s := by
  induction s with
  | nil =>
    intro t ht
    simp only [py_split, List.mem_singleton] at ht
    simp [ht]
  | cons c0 rest ih =>
    intro t ht
    unfold py_split at ht
    cases h : py_split sep rest with
    | nil => exact absurd h (py_split_ne_nil sep rest)
    | cons t0 ts =>
      rw [h] at ht
      dsimp only at ht
      by_cases hcs : c0 = sep
      · rw [if_pos hcs] at ht
        rcases List.mem_cons.mp ht with rfl | h2
        · intro c hc
          exact absurd hc (List.not_mem_nil c)
        · intro c hc
          exact List.mem_cons_of_mem c0 (ih t (by rw [h]; exact h2) c hc)
      · rw [if_neg hcs] at ht
        rcases List.mem_cons.mp ht with rfl | h2
        · intro c hc
          rcases List.mem_cons.mp hc with rfl | h3
          · exact List.mem_cons_self c rest
          · exact List.mem_cons_of_mem c0
              (ih t0 (by rw [h]; exact List.mem_cons_self t0 ts) c h3)
        · intro c hc
          exact List.mem_cons_of_mem c0 (ih t (by rw [h]; exact List.mem_cons_of_mem t0 h2) c hc)

lemma py_split_cons_eq (sep c : Char) (rest : Tok) (t0 : Tok) (ts : List Tok)
    (h : py_split sep rest = t0 :: ts) :
    py_split sep (c :: rest) = if c = sep then [] :: t0 :: ts else (c :: t0) :: ts := by
  unfold py_split
  rw [h]

lemma py_split_of_no_sep (sep : Char) (t : Tok) (h : sep ∉ t) : py_split sep t = [t] := by
  induction t with
  | nil => rfl
  | cons c r ih =>
    have hcs : ¬ c = sep := fun he => h (by rw [← he]; exact List.mem_cons_self c r)
    have ih' := ih (fun hm => h (List.mem_cons_of_mem c hm))
    rw [py_split_cons_eq sep c r r [] ih', if_neg hcs]

lemma py_split_append (sep : Char) (t r : Tok) (h : sep ∉ t) :
    py_split sep (t ++ sep :: r) = t :: py_split sep r := by
  induction t with
  | nil =>
    show py_split sep (sep :: r) = [] :: py_split sep r
    cases hr : py_split sep r with
    | nil => exact absurd hr (py_split_ne_nil sep r)
    | cons t0 ts => rw [py_split_cons_eq sep sep r t0 ts hr, if_pos rfl]
  | cons c t' ih =>
    have hcs : ¬ c = sep := fun he => h (by rw [← he]; exact List.mem_cons_self c t')
    have ih' := ih (fun hm => h (List.mem_cons_of_mem c hm))
    show py_split sep (c :: (t' ++ sep :: r)) = (c :: t') :: py_split sep r
    rw [py_split_cons_eq sep c (t' ++ sep :: r) t' (py_split sep r) ih', if_neg hcs]

lemma py_split_join (sep : Char) (ts : List Tok) (hne : ts ≠ [])
    (h : ∀ t ∈ ts, sep ∉ t) : py_split sep (py_join sep ts) = ts := by
  induction ts with
  | nil => exact absurd rfl hne
  | cons t ts' ih =>
    cases ts' with
    | nil => exact py_split_of_no_sep sep t (h t (List.mem_cons_self t []))
    | cons t2 ts'' =>
      show py_split sep (t ++ sep :: py_join sep (t2 :: ts'')) = t :: t2 :: ts''
      rw [py_split_append sep t _ (h t (List.mem_cons_self t _))]
      rw [ih (by simp) (fun u hu => h u (List.mem_cons_of_mem t hu))]

lemma lexLe_cons_iff (a b : Char) (s t : Tok) :
    lexLe (a :: s) (b :: t) = true ↔ (a < b ∨ (a = b ∧ lexLe s t = true)) := by
  rw [show lexLe (a :: s) (b :: t) =
    if a < b then true else if b < a then false else lexLe s t from rfl]
  by_cases h1 : a < b
  · simp [h1]
  · rw [if_neg h1]
    by_cases h2 : b < a
    · rw [if_pos h2]
      constructor
      · intro hx
        exact absurd hx (by simp)
      · rintro (hab | ⟨rfl, -⟩)
        · exact absurd hab h1
        · exact absurd h2 (lt_irrefl a)
    · have hab : a = b := le_antisymm (not_lt.mp h2) (not_lt.mp h1)
      rw [if_neg h2]
      simp [hab, h1]

lemma lexLe_total (a b : Tok) : lexLe a b = true ∨ lexLe b a = true := by
  induction a generalizing b with
  | nil => exact Or.inl rfl
  | cons x s ih =>
    cases b with
    | nil => exact Or.inr rfl
    | cons y t =>
      rcases lt_trichotomy x y with h | h | h
      · exact Or.inl ((lexLe_cons_iff x y s t).mpr (Or.inl h))
      · rcases ih t with h2 | h2
        · exact Or.inl ((lexLe_cons_iff x y s t).mpr (Or.inr ⟨h, h2⟩))
        · exact Or.inr ((lexLe_cons_iff y x t s).mpr (Or.inr ⟨h.symm, h2⟩))
      · exact Or.inr ((lexLe_cons_iff y x t s).mpr (Or.inl h))

lemma lexLe_trans (a b c : Tok) (h1 : lexLe a b = true) (h2 : lexLe b c = true) :
    lexLe a c = true := by
  induction a generalizing b c with
  | nil => rfl
  | cons x s ih =>
    cases b with
    | nil => exact absurd h1 (by simp [lexLe])
    | cons y t =>
      cases c with
      | nil => exact absurd h2 (by simp [lexLe])
      | cons z u =>
        rcases (lexLe_cons_iff x y s t).mp h1 with hxy | ⟨rfl, hst⟩
        · rcases (lexLe_cons_iff y z t u).mp h2 with hyz | ⟨rfl, htu⟩
          · exact (lexLe_cons_iff x z s u).mpr (Or.inl (lt_trans hxy hyz))
          · exact (lexLe_cons_iff x y s u).mpr (Or.inl hxy)
        · rcases (lexLe_cons_iff x z t u).mp h2 with hyz | ⟨rfl, htu⟩
          · exact (lexLe_cons_iff x z s u).mpr (Or.inl hyz)
          · exact (lexLe_cons_iff x x s u).mpr (Or.inr ⟨rfl, ih t u hst htu⟩)

instance : IsTotal Tok tokLe := ⟨fun a b => lexLe_total a b⟩

instance : IsTrans Tok tokLe := ⟨fun a b c h1 h2 => lexLe_trans a b c h1 h2⟩

lemma norm_part_mod (m : Tok) (hm : m ∈ mod_names) : norm_part m = m := by
  have h : ∀ x ∈ mod_names, norm_part x = x := by decide
  exact h m hm

lemma norm_part_none (p : Tok)
    (hf : mod_names.find? (fun m => startswith (pyStrip p) m) = none) :
    norm_part p = pyStrip p := by
  unfold norm_part
  dsimp only
  rw [hf]

lemma norm_part_some (p : Tok) (m : Tok)
    (hf : mod_names.find? (fun mm => startswith (pyStrip p) mm) = some m) :
    norm_part p = m := by
  unfold norm_part
  dsimp only
  rw [hf]

lemma norm_part_norm_part (p : Tok) : norm_part (norm_part p) = norm_part p := by
  cases hf : mod_names.find? (fun m => startswith (pyStrip p) m) with
  | none =>
    rw [norm_part_none p hf]
    have hss : pyStrip (pyStrip p) = pyStrip p := pyStrip_idem p
    cases hf2 : mod_names.find? (fun m => startswith (pyStrip (pyStrip p)) m) with
    | none => rw [norm_part_none (pyStrip p) hf2, hss]
    | some m =>
      rw [hss] at hf2
      exact absurd (hf ▸ hf2) (by simp)
  | some m =>
    rw [norm_part_some p m hf]
    exact norm_part_mod m (List.mem_of_find?_eq_some hf)

lemma norm_part_no_sep (p : Tok) (h : '+' ∉ p) : '+' ∉ norm_part p := by
  cases hf : mod_names.find? (fun m => startswith (pyStrip p) m) with
  | none =>
    rw [norm_part_none p hf]
    exact fun hc => h (pyStrip_subset p _ hc)
  | some m =>
    rw [norm_part_some p m hf]
    have hmods : ∀ x ∈ mod_names, '+' ∉ x := by decide
    exact hmods m (List.mem_of_find?_eq_some hf)

lemma norm_part_lower_fixed (p : Tok) (h : ∀ c ∈ p, lowerChar c = c) :
    ∀ c ∈ norm_part p, lowerChar c = c := by
  cases hf : mod_names.find? (fun m => startswith (pyStrip p) m) with
  | none =>
    rw [norm_part_none p hf]
    exact fun c hc => h c (pyStrip_subset p c hc)
  | some m =>
    rw [norm_part_some p m hf]
    have hmods : ∀ x ∈ mod_names, ∀ c ∈ x, lowerChar c = c := by decide
    exact hmods m (List.mem_of_find?_eq_some hf)

lemma map_eq_self_of {α : Type} (f : α → α) (l : List α) (h : ∀ x ∈ l, f x = x) :
    l.map f = l := by
  induction l with
  | nil => rfl
  | cons a r ih =>
    rw [List.map_cons, h a (List.mem_cons_self a r),
      ih (fun x hx => h x (List.mem_cons_of_mem a hx))]

lemma pyLower_join (ts : List Tok) :
    pyLower (py_join '+' ts) = py_join '+' (ts.map pyLower) := by
  induction ts with
  | nil => rfl
  | cons t ts' ih =>
    cases ts' with
    | nil => rfl
    | cons t2 ts'' =>
      show pyLower (t ++ '+' :: py_join '+' (t2 :: ts'')) =
        pyLower t ++ '+' :: py_join '+' ((t2 :: ts'').map pyLower)
      unfold pyLower
      rw [List.map_append, List.map_cons]
      rw [show lowerChar '+' = '+' from rfl]
      have ih2 : List.map lowerChar (py_join '+' (t2 :: ts'')) =
          py_join '+' ((t2 :: ts'').map pyLower) := ih
      rw [ih2]
      rfl

lemma normalize_hotkey_string_idem (s : Tok) :
    normalize_hotkey_string (normalize_hotkey_string s) = normalize_hotkey_string s := by
  unfold normalize_hotkey_string
  have hmemns : ∀ t ∈ List.insertionSort tokLe ((py_split '+' (pyLower s)).map norm_part),
      t ∈ (py_split '+' (pyLower s)).map norm_part := fun t ht =>
    ((List.perm_insertionSort tokLe ((py_split '+' (pyLower s)).map norm_part)).mem_iff).mp ht
  have htok : ∀ t ∈ (py_split '+' (pyLower s)).map norm_part,
      ∃ u, u ∈ py_split '+' (pyLower s) ∧ t = norm_part u := by
    intro t ht
    obtain ⟨u, hu, rfl⟩ := List.mem_map.mp ht
    exact ⟨u, hu, rfl⟩
  have hlower : ∀ t ∈ List.insertionSort tokLe ((py_split '+' (pyLower s)).map norm_part),
      pyLower t = t := by
    intro t ht
    obtain ⟨u, hu, rfl⟩ := htok t (hmemns t ht)
    apply pyLower_eq_self
    apply norm_part_lower_fixed
    intro c hc
    exact pyLower_chars_fixed s c (py_split_chars '+' (pyLower s) u hu c hc)
  have hnosep : ∀ t ∈ List.insertionSort tokLe ((py_split '+' (pyLower s)).map norm_part),
      '+' ∉ t := by
    intro t ht
    obtain ⟨u, hu, rfl⟩ := htok t (hmemns t ht)
    exact norm_part_no_sep u (py_split_no_sep '+' (pyLower s) u hu)
  have hne : List.insertionSort tokLe ((py_split '+' (pyLower s)).map norm_part) ≠ [] := by
    intro h0
    have hlen := (List.perm_insertionSort tokLe
      ((py_split '+' (pyLower s)).map norm_part)).length_eq
    rw [h0] at hlen
    have hns : (py_split '+' (pyLower s)).map norm_part = [] :=
      List.length_eq_zero.mp hlen.symm
    exact py_split_ne_nil '+' (pyLower s) (List.map_eq_nil_iff.mp hns)
  have h1 : pyLower (py_join '+'
      (List.insertionSort tokLe ((py_split '+' (pyLower s)).map norm_part))) =
      py_join '+' (List.insertionSort tokLe ((py_split '+' (pyLower s)).map norm_part)) := by
    rw [pyLower_join, map_eq_self_of pyLower _ hlower]
  have h2 : py_split '+' (py_join '+'
      (List.insertionSort tokLe ((py_split '+' (pyLower s)).map norm_part))) =
      List.insertionSort tokLe ((py_split '+' (pyLower s)).map norm_part) :=
    py_split_join '+' _ hne hnosep
  have h3 : (List.insertionSort tokLe ((py_split '+' (pyLower s)).map norm_part)).map
      norm_part = List.insertionSort tokLe ((py_split '+' (pyLower s)).map norm_part) :=
    map_eq_self_of norm_part _ (fun t ht => by
      obtain ⟨u, hu, rfl⟩ := htok t (hmemns t ht)
      exact norm_part_norm_part u)
  have h4 : List.insertionSort tokLe
      (List.insertionSort tokLe ((py_split '+' (pyLower s)).map norm_part)) =
      List.insertionSort tokLe ((py_split '+' (pyLower s)).map norm_part) :=
    List.Sorted.insertionSort_eq
      (List.sorted_insertionSort tokLe ((py_split '+' (pyLower s)).map norm_part))
  rw [h1, h2, h3, h4]

/-- C4, amended: the chord-string normalization of `register`/`unregister` is
idempotent, and `register("1")` is indeed triggered by a live key-press whose
character is `'!'` (the shifted-symbol map lives on the live-event side).
But the two normalizations are not identical — see
`hotkey_norm_differs_from_key_norm` — because `_normalize_hotkey_string`
never applies the shifted-symbol map. -/
theorem normalization_idempotent_and_shift_trigger :
    (∀ s : Tok, normalize_hotkey_string (normalize_hotkey_string s) =
      normalize_hotkey_string s) ∧
    pys ("1") ∈ (on_press (register det_empty (pys ("1"))) (.keychar '!')).2 := by
  exact ⟨normalize_hotkey_string_idem, by decide⟩

/-- C4 counterexample: on the single-token chord string `"!"`, the
register-side normalization yields `"!"` while the live-key normalization of
the `'!'` key-press yields `"1"`, so the two normalizations are not
identical; a chord registered as `"!"` can never match a live press. -/
theorem hotkey_norm_differs_from_key_norm :
    normalize_hotkey_string (pys ("!")) = pys ("!") ∧
    normalize_key (.keychar '!') = pys ("1") ∧
    normalize_hotkey_string (pys ("!")) ≠ normalize_key (.keychar '!') := by
  refine ⟨by decide, by decide, by decide⟩

lemma addChunk_length (block chunk : List (List ℚ)) :
    (addChunk block chunk).length = block.length := by
  induction block generalizing chunk with
  | nil => cases chunk <;> rfl
  | cons b bs ih =>
    cases chunk with
    | nil => rfl
    | cons c cs =>
      show (addFrame b c :: addChunk bs cs).length = (b :: bs).length
      rw [List.length_cons, List.length_cons, ih cs]

lemma addChunk_getD (block chunk : List (List ℚ)) (i : Nat) :
    (addChunk block chunk).getD i [] =
      if i < chunk.length then addFrame (block.getD i []) (chunk.getD i [])
      else block.getD i [] := by
  induction chunk generalizing block i with
  | nil =>
    rw [if_neg (by simp)]
    cases block <;> rfl
  | cons c cs ih =>
    cases block with
    | nil =>
      show (([] : List (List ℚ))).getD i [] = _
      cases hi : decide (i < (c :: cs).length) with
      | true =>
        rw [if_pos (by simpa using hi)]
        show ([] : List ℚ) = addFrame (([] : List (List ℚ)).getD i []) ((c :: cs).getD i [])
        cases i <;> rfl
      | false => rw [if_neg (by simpa using hi)]
    | cons b bs =>
      show (addFrame b c :: addChunk bs cs).getD i [] = _
      cases i with
      | zero => rw [if_pos (by simp)]; rfl
      | succ i' =>
        show (addChunk bs cs).getD i' [] = _
        rw [ih bs i']
        by_cases h : i' < cs.length
        · rw [if_pos h, if_pos (by simpa using Nat.succ_lt_succ h)]
          rfl
        · rw [if_neg h, if_neg (by simp; omega)]
          rfl

lemma zip_replicate_zero (a : List ℚ) (n : Nat) (h : a.length ≤ n) :
    List.zipWith (· + ·) a (List.replicate n (0 : ℚ)) = a := by
  induction a generalizing n with
  | nil => simp
  | cons x xs ih =>
    cases n with
    | zero => simp at h
    | succ n' =>
      rw [List.replicate_succ, List.zipWith_cons_cons, add_zero,
        ih n' (by simpa using h)]

lemma zip_replicate_zero_left (a : List ℚ) (n : Nat) (h : a.length ≤ n) :
    List.zipWith (· + ·) (List.replicate n (0 : ℚ)) a = a := by
  induction a generalizing n with
  | nil => simp
  | cons x xs ih =>
    cases n with
    | zero => simp at h
    | succ n' =>
      rw [List.replicate_succ, List.zipWith_cons_cons, zero_add,
        ih n' (by simpa using h)]

lemma getD_replicate_frame (n i : Nat) (a : List ℚ) :
    (List.replicate n a).getD i [] = if i < n then a else [] := by
  induction n generalizing i with
  | zero => rw [if_neg (by omega)]; rfl
  | succ n' ih =>
    rw [List.replicate_succ]
    cases i with
    | zero => rw [if_pos (by omega)]; rfl
    | succ i' =>
      show (List.replicate n' a).getD i' [] = _
      rw [ih i']
      by_cases h : i' < n'
      · rw [if_pos h, if_pos (by omega)]
      · rw [if_neg h, if_neg (by omega)]

lemma chunk_of_length (frames : Nat) (mv : ℚ) (sd : SoundData) :
    (chunk_of frames mv sd).length = min frames (sd.samples.length - sd.position) := by
  unfold chunk_of
  rw [List.length_map, List.length_take, List.length_drop]
  omega

lemma chunk_of_getD (frames : Nat) (mv : ℚ) (sd : SoundData) (i : Nat)
    (h : i < min frames (sd.samples.length - sd.position)) :
    (chunk_of frames mv sd).getD i [] =
      (sd.samples.getD (sd.position + i) []).map (fun x => x * sd.volume * mv) := by
  have hlt : i < (chunk_of frames mv sd).length := by rw [chunk_of_length]; exact h
  have hlt2 : i < ((sd.samples.drop sd.position).take
      (min frames (sd.samples.length - sd.position))).length := by
    rw [List.length_take, List.length_drop]
    omega
  have hlt3 : i < (sd.samples.drop sd.position).length := by
    rw [List.length_drop]
    omega
  have hlt4 : sd.position + i < sd.samples.length := by omega
  rw [List.getD_eq_getElem _ _ hlt]
  unfold chunk_of
  rw [List.getElem_map, List.getElem_take, List.getElem_drop,
    List.getD_eq_getElem _ _ hlt4]

lemma addFrame_length_le (a b : List ℚ) : (addFrame a b).length ≤ a.length := by
  unfold addFrame
  rw [List.length_zipWith]
  omega

lemma mix_sounds_getD (frames : Nat) (mv : ℚ) (sounds : List (Nat × SoundData))
    (block : List (List ℚ)) (i : Nat) (hi : i < frames)
    (hrow : ∀ j, (block.getD j []).length ≤ CHANNELS) :
    (mix_sounds frames mv sounds block).getD i [] =
      sounds.foldl (fun acc e => addFrame acc (frame_contrib frames i mv e.2))
        (block.getD i []) := by
  induction sounds generalizing block with
  | nil => rfl
  | cons e rest ih =>
    obtain ⟨id0, sd⟩ := e
    show (mix_sounds frames mv ((id0, sd) :: rest) block).getD i [] = _
    unfold mix_sounds
    by_cases hp : sd.paused
    · rw [if_pos hp]
      have hseed : addFrame (block.getD i []) (frame_contrib frames i mv sd) =
          block.getD i [] := by
        unfold frame_contrib
        rw [if_neg (by simp [hp])]
        exact zip_replicate_zero _ _ (hrow i)
      rw [ih block hrow, List.foldl_cons, hseed]
    · rw [if_neg hp]
      dsimp only
      by_cases htc : 0 < min frames (sd.samples.length - sd.position)
      · rw [if_pos htc]
        have hrow' : ∀ j,
            ((addChunk block (chunk_of frames mv sd)).getD j []).length ≤ CHANNELS := by
          intro j
          rw [addChunk_getD]
          by_cases hj : j < (chunk_of frames mv sd).length
          · rw [if_pos hj]
            exact le_trans (addFrame_length_le _ _) (hrow j)
          · rw [if_neg hj]
            exact hrow j
        rw [ih _ hrow', List.foldl_cons]
        have hseed : (addChunk block (chunk_of frames mv sd)).getD i [] =
            addFrame (block.getD i []) (frame_contrib frames i mv sd) := by
          rw [addChunk_getD]
          by_cases hic : i < (chunk_of frames mv sd).length
          · rw [if_pos hic]
            have him : i < min frames (sd.samples.length - sd.position) := by
              rw [chunk_of_length] at hic
              exact hic
            rw [chunk_of_getD frames mv sd i him]
            unfold frame_contrib
            rw [if_pos ⟨by simpa using hp, him⟩]
          · rw [if_neg hic]
            have him : ¬ i < min frames (sd.samples.length - sd.position) := by
              rw [chunk_of_length] at hic
              exact hic
            unfold frame_contrib
            rw [if_neg (by rintro ⟨-, hx⟩; exact him hx)]
            exact (zip_replicate_zero _ _ (hrow i)).symm
        rw [hseed]
      · rw [if_neg htc]
        have hseed : addFrame (block.getD i []) (frame_contrib frames i mv sd) =
            block.getD i [] := by
          unfold frame_contrib
          rw [if_neg (by rintro ⟨-, hx⟩; omega)]
          exact zip_replicate_zero _ _ (hrow i)
        rw [ih block hrow, List.foldl_cons, hseed]

lemma advance_eq (frames : Nat) (sd : SoundData) :
    advance_sound frames sd = advance_spec frames sd := by
  unfold advance_sound advance_spec
  by_cases hp : sd.paused
  · rw [if_pos hp, if_pos hp]
  · rw [if_neg hp, if_neg hp]
    dsimp only
    by_cases h0 : 0 < min frames (sd.samples.length - sd.position)
    · rw [if_pos h0]
    · rw [if_neg h0]
      have hz : min frames (sd.samples.length - sd.position) = 0 := by omega
      rw [hz]
      cases sd
      simp

lemma not_finished_eq (sd : SoundData) :
    (!(sound_finished sd)) = (sd.paused || decide (sd.position < sd.samples.length)) := by
  unfold sound_finished
  cases hp : sd.paused
  · simp only [Bool.not_true, Bool.not_false, Bool.true_and, Bool.false_or]
    by_cases h : sd.samples.length ≤ sd.position
    · rw [decide_eq_true h]
      simp only [Bool.not_true]
      rw [decide_eq_false (by omega)]
    · rw [decide_eq_false h]
      simp only [Bool.not_false]
      rw [decide_eq_true (by omega)]
  · simp [hp]

lemma silent_rows_le (frames : Nat) :
    ∀ j, ((silent_block frames).getD j []).length ≤ CHANNELS := by
  intro j
  unfold silent_block
  rw [getD_replicate_frame]
  by_cases h : j < frames
  · rw [if_pos h]
    simp
  · rw [if_neg h]
    simp

/-- C1: the mix callback output equals, frame by frame, a silent buffer into
which each active non-paused voice's `min(frames, remaining)` samples from
its cursor are added after scaling by `voice.gain * master.gain`, with no
amplitude clamping; each non-paused voice's cursor then advances by exactly
the copied length and every voice whose cursor reached its buffer end is
removed; and with master gain 1 and two active voices of gains g1 and g2,
every output frame where both voices are active is exactly
`g1*s1 + g2*s2`. -/
theorem audio_callback_mixes_scales_advances_and_removes (frames : Nat) (p : AudioPlayer) :
    (∀ i, i < frames →
      (audio_callback frames p).1.getD i [] = mixed_frame_spec frames p i) ∧
    ((audio_callback frames p).2.active_sounds =
      (p.active_sounds.map (fun e => (e.1, advance_spec frames e.2))).filter
        (fun e => e.2.paused || decide (e.2.position < e.2.samples.length))) ∧
    (∀ id1 id2 sd1 sd2, p.active_sounds = [(id1, sd1), (id2, sd2)] →
      p.master_volume = 1 → sd1.paused = false → sd2.paused = false →
      0 ≤ sd1.volume → sd1.volume ≤ 2 → 0 ≤ sd2.volume → sd2.volume ≤ 2 →
      (∀ fr ∈ sd1.samples, fr.length = CHANNELS) →
      (∀ fr ∈ sd2.samples, fr.length = CHANNELS) →
      ∀ i, i < frames → sd1.position + i < sd1.samples.length →
        sd2.position + i < sd2.samples.length →
        (audio_callback frames p).1.getD i [] =
          List.zipWith (· + ·)
            ((sd1.samples.getD (sd1.position + i) []).map (· * sd1.volume))
            ((sd2.samples.getD (sd2.position + i) []).map (· * sd2.volume))) := by
  have hA : ∀ i, i < frames →
      (audio_callback frames p).1.getD i [] = mixed_frame_spec frames p i := by
    intro i hi
    show (mix_sounds frames p.master_volume p.active_sounds (silent_block frames)).getD i []
      = _
    rw [mix_sounds_getD frames p.master_volume p.active_sounds (silent_block frames) i hi
      (silent_rows_le frames)]
    unfold mixed_frame_spec
    congr 1
    unfold silent_block
    rw [getD_replicate_frame, if_pos hi]
  refine ⟨hA, ?_, ?_⟩
  · show ((p.active_sounds.map (fun e => (e.1, advance_sound frames e.2))).filter
        (fun e => !(sound_finished e.2))) = _
    rw [show (fun e : Nat × SoundData => (e.1, advance_sound frames e.2)) =
        (fun e : Nat × SoundData => (e.1, advance_spec frames e.2)) from
      funext (fun e => by rw [advance_eq])]
    exact List.filter_congr (fun e he => not_finished_eq e.2)
  · intro id1 id2 sd1 sd2 hact hm hp1 hp2 hv1a hv1b hv2a hv2b hf1 hf2 i hi hr1 hr2
    rw [hA i hi]
    unfold mixed_frame_spec
    rw [hact, hm]
    show addFrame (addFrame (List.replicate CHANNELS 0) (frame_contrib frames i 1 sd1))
      (frame_contrib frames i 1 sd2) = _
    have hc1 : frame_contrib frames i 1 sd1 =
        (sd1.samples.getD (sd1.position + i) []).map (· * sd1.volume) := by
      unfold frame_contrib
      rw [if_pos ⟨hp1, by omega⟩]
      exact List.map_congr_left (fun x _ => by rw [mul_one])
    have hc2 : frame_contrib frames i 1 sd2 =
        (sd2.samples.getD (sd2.position + i) []).map (· * sd2.volume) := by
      unfold frame_contrib
      rw [if_pos ⟨hp2, by omega⟩]
      exact List.map_congr_left (fun x _ => by rw [mul_one])
    rw [hc1, hc2]
    have hlen1 : ((sd1.samples.getD (sd1.position + i) []).map (· * sd1.volume)).length =
        CHANNELS := by
      rw [List.length_map, List.getD_eq_getElem _ _ hr1]
      exact hf1 _ (List.getElem_mem hr1)
    show List.zipWith (· + ·)
      (List.zipWith (· + ·) (List.replicate CHANNELS 0)
        ((sd1.samples.getD (sd1.position + i) []).map (· * sd1.volume)))
      ((sd2.samples.getD (sd2.position + i) []).map (· * sd2.volume)) = _
    rw [zip_replicate_zero_left _ _ (le_of_eq hlen1)]

/-- Witness for C1 on the concrete two-voice engine `p_mix` (gains 1/2 and 2,
master 1): the first mixed output frame is computed by the callback and
matches `g1*s1 + g2*s2`, and the spec-side table after the callback. -/
theorem audio_callback_mixes_scales_advances_and_removes_witness :
    (audio_callback 2 p_mix).1.getD 0 [] = mixed_frame_spec 2 p_mix 0 ∧
    (audio_callback 2 p_mix).2.active_sounds =
      (p_mix.active_sounds.map (fun e => (e.1, advance_spec 2 e.2))).filter
        (fun e => e.2.paused || decide (e.2.position < e.2.samples.length)) ∧
    (audio_callback 2 p_mix).1.getD 0 [] =
      List.zipWith (· + ·)
        ((sd_mix1.samples.getD 0 []).map (· * sd_mix1.volume))
        ((sd_mix2.samples.getD 0 []).map (· * sd_mix2.volume)) := by
  have h := audio_callback_mixes_scales_advances_and_removes 2 p_mix
  refine ⟨h.1 0 (by decide), h.2.1, ?_⟩
  exact h.2.2 1 2 sd_mix1 sd_mix2 rfl rfl rfl rfl (by norm_num [sd_mix1])
    (by norm_num [sd_mix1]) (by norm_num [sd_mix2]) (by norm_num [sd_mix2])
    (by decide) (by decide) 0 (by decide) (by decide) (by decide)
